import Mathlib

/-!
Shallow embedding of the multi-modal RAG system's pure core:
the smart chunker (`src/rag/smart_chunking.py`), the page extractor
(`src/rag/combine.py`), document conversion (`src/rag/lang_doc.py`),
and the vector-store / query layer (`src/rag/chain.py`,
`src/backend/api.py`).  Strings are embedded as `List Char`; Python's
`str.split("\n\n")`, `str.strip`, `len` and `"\n\n".join` are given
executable models below.
-/

/-- Characters Python's `str.strip()` removes (ASCII fragment). -/
def isSpace (c : Char) : Bool :=
  c = ' ' || c = '\t' || c = '\n' || c = '\r' || c = '\x0b' || c = '\x0c'

/-- Embedded string type: a list of characters. -/
abbrev Str := List Char

/-- The paragraph separator `"\n\n"`. -/
def psep : Str := ['\n', '\n']

/-- Python `s.lstrip()`. -/
def lstrip (s : Str) : Str := s.dropWhile isSpace

/-- Python `s.rstrip()`. -/
def rstrip (s : Str) : Str := (s.reverse.dropWhile isSpace).reverse

/-- Python `s.strip()`. -/
def strip (s : Str) : Str := lstrip (rstrip s)

/-- Python `s.split("\n\n")`: greedy left-to-right scan on the
two-character separator. -/
def splitSep : Str → List Str
  | [] => [[]]
  | '\n' :: '\n' :: rest => [] :: splitSep rest
  | c :: rest =>
    match splitSep rest with
    | [] => [[c]]
    | p :: ps => (c :: p) :: ps

/-- Python `"\n\n".join(xs)`. -/
def joinSep : List Str → Str
  | [] => []
  | [p] => p
  | p :: q :: rest => p ++ psep ++ joinSep (q :: rest)

/-- Metadata attached to an extracted artifact: page number, kind
(`"text"`, `"table"`, `"image"`), and the optional `ref` key
(`none` models a metadata dict without a `ref` entry). -/
structure Metadata where
  page : Nat
  type : Str
  ref : Option Str
deriving Repr, DecidableEq

/-- A langchain `Document`: `page_content` plus `metadata`. -/
structure Document where
  page_content : Str
  metadata : Metadata
deriving Repr, DecidableEq

/-- A raw extracted item (`{"content": ..., "metadata": ...}` dict)
produced by `raw_document_text`. -/
structure RawDoc where
  content : Str
  metadata : Metadata
deriving Repr, DecidableEq

/-- Function `get_langchain_docs` (src/rag/lang_doc.py): 1:1 conversion of raw
items to langchain documents. -/
def get_langchain_docs (docs : List RawDoc) : List Document :=
  docs.map (fun d => ⟨d.content, d.metadata⟩)

/-- The paragraph-packing loop of `smart_text_chunker`
(src/rag/smart_chunking.py, lines 12-22) together with the final
flush (lines 24-30): iterates over the remaining paragraphs carrying
the accumulating `buffer` and the emitted `chunks`. -/
def chunkerGo (meta : Metadata) (max_chars : Nat) :
    List Str → Str → List Document → List Document
  | [], buffer, chunks =>
    if strip buffer ≠ [] then chunks ++ [⟨strip buffer, meta⟩] else chunks
  | para :: rest, buffer, chunks =>
    if buffer.length + para.length ≤ max_chars then
      chunkerGo meta max_chars rest (buffer ++ para ++ psep) chunks
    else
      chunkerGo meta max_chars rest (para ++ psep) (chunks ++ [⟨strip buffer, meta⟩])

/-- Function `smart_text_chunker` (src/rag/smart_chunking.py): split the
content on blank lines and pack paragraphs greedily. -/
def smart_text_chunker (doc : Document) (max_chars : Nat) : List Document :=
  chunkerGo doc.metadata max_chars (splitSep doc.page_content) [] []

/-- Decimal rendering of a page number, as Python string formatting
does for an `int`. -/
def natStr (n : Nat) : Str := (Nat.repr n).data

/-- The dispatch of `get_chunked_docs` (src/rag/smart_chunking.py,
lines 40-47) on one langchain document: `"text"` documents are
chunked with `max_chars = 500` (the default), `"table"` and
`"image"` documents are passed through as one chunk. -/
def chunkDoc (doc : Document) : List Document :=
  if doc.metadata.type = "text".data then smart_text_chunker doc 500
  else if doc.metadata.type = "table".data then [doc]
  else if doc.metadata.type = "image".data then [doc]
  else []

/-!
## Page extraction (src/rag/combine.py)

`raw_document_text` opens the PDF with external libraries.  The
embedding abstracts one page as the outcomes those libraries deliver:
the text layer (`page.extract_text()` may return `None`), the table
detection (`camelot.read_pdf` either raises or returns the rendered
tables), and per image the OCR outcome (`extract_image` / `Image.open`
/ `pytesseract.image_to_string` either raises or returns a string).
The source has no `try`/`except`, so a raised error is propagated:
the whole function is `Except`-valued.
-/

deriving instance DecidableEq for Except

/-- Outcomes of the external extraction libraries on one page. -/
structure PageData where
  text : Option Str
  tables : Except Unit (List Str)
  images : List (Except Unit Str)
deriving Repr, DecidableEq

/-- The `if text:` block: a text item is emitted iff the text layer is
truthy (not `None` and not the empty string). -/
def textItems (page_index : Nat) (text : Option Str) : List RawDoc :=
  match text with
  | none => []
  | some t => if t ≠ [] then [⟨t, ⟨page_index, "text".data, none⟩⟩] else []

/-- The table loop: one item per detected table, `ref = "Table {i+1}"`. -/
def tableItems (page_index : Nat) : Nat → List Str → List RawDoc
  | _, [] => []
  | t_idx, table :: rest =>
    ⟨table, ⟨page_index, "table".data, some ("Table ".data ++ natStr (t_idx + 1))⟩⟩ ::
      tableItems page_index (t_idx + 1) rest

/-- The image loop: OCR each image (a raised error propagates — there
is no `try`), and emit an item iff `ocr_text.strip()` is truthy,
`ref = "Image {i+1}"`. -/
def imageItems (page_index : Nat) : Nat → List (Except Unit Str) → Except Unit (List RawDoc)
  | _, [] => .ok []
  | _, .error e :: _ => .error e
  | img_idx, .ok ocr_text :: rest =>
    match imageItems page_index (img_idx + 1) rest with
    | .error e => .error e
    | .ok items =>
      .ok (if strip ocr_text ≠ [] then
        ⟨ocr_text, ⟨page_index, "image".data, some ("Image ".data ++ natStr (img_idx + 1))⟩⟩ :: items
      else items)

/-- The per-page loop of `raw_document_text`, pages numbered from 1. -/
def rawPagesGo : Nat → List PageData → Except Unit (List RawDoc)
  | _, [] => .ok []
  | page_index, page :: rest =>
    match page.tables with
    | .error e => .error e
    | .ok tables =>
      match imageItems page_index 0 page.images with
      | .error e => .error e
      | .ok imgs =>
        match rawPagesGo (page_index + 1) rest with
        | .error e => .error e
        | .ok restItems =>
          .ok (textItems page_index page.text ++ tableItems page_index 0 tables
            ++ imgs ++ restItems)

/-- Function `raw_document_text` (src/rag/combine.py): text, table and OCR items
of every page in order; any error raised by a sub-extraction aborts the
whole call. -/
def raw_document_text (pages : List PageData) : Except Unit (List RawDoc) :=
  rawPagesGo 1 pages

/-- Function `get_chunked_docs` (src/rag/smart_chunking.py): raw extraction,
conversion to langchain documents, then per-document chunking. -/
def get_chunked_docs (pages : List PageData) : Except Unit (List Document) :=
  match raw_document_text pages with
  | .error e => .error e
  | .ok docs => .ok ((get_langchain_docs docs).flatMap chunkDoc)

/-!
## Vector store and query layer (src/rag/chain.py, src/backend/api.py)

The FAISS index saved at `VECTOR_PATH` is modelled by the list of
documents it holds; the saved state is `Option` (no file on disk =
`none`).
-/

/-- Function `store_documents` (src/rag/chain.py): `FAISS.from_documents` builds
a fresh index from exactly the given documents and `save_local`
overwrites `VECTOR_PATH` with it.  Returns the vectorstore and the new
saved state. -/
def store_documents (docs : List Document) (_saved : Option (List Document)) :
    List Document × Option (List Document) :=
  let vectorstore := docs
  (vectorstore, some vectorstore)

/-- Function `load_documents` (src/rag/chain.py): raises
`ValueError("Vectorstore not found,Upload Your Document First")` when
nothing has been saved at `VECTOR_PATH`. -/
def load_documents (saved : Option (List Document)) : Except String (List Document) :=
  match saved with
  | none => .error "Vectorstore not found,Upload Your Document First"
  | some s => .ok s

/-- Function `format_docs_with_metadata` (src/rag/chain.py): render each
retrieved chunk as a citation header — `(Page N` plus `, ref` when
`meta.get("ref")` is truthy — then a newline and the content; join the
blocks with `"\n\n"`. -/
def format_docs_with_metadata (docs : List Document) : Str :=
  joinSep (docs.map (fun d =>
    let headBase := "(Page ".data ++ natStr d.metadata.page
    let withRef :=
      match d.metadata.ref with
      | some r => if r ≠ [] then headBase ++ ", ".data ++ r else headBase
      | none => headBase
    (withRef ++ ")".data) ++ '\n' :: d.page_content))

/-- Function `get_response` (src/backend/api.py, `/query`): load the index
(inside `try`), retrieve, assemble the context, invoke the chain; a
raised error becomes an HTTP 500 whose detail is the error's message.
The `Bool` records whether the chain (context assembly + LLM) was
invoked. -/
def get_response (saved : Option (List Document))
    (retrieve : List Document → Str → List Document)
    (llm : Str → Str → Str) (input : Str) :
    Except (Nat × String) (Str × Str) × Bool :=
  match load_documents saved with
  | .error e => (.error (500, e), false)
  | .ok vectorstore =>
    let docs := retrieve vectorstore input
    let context := format_docs_with_metadata docs
    (.ok (input, llm context input), true)

/-!
## Spec-side definitions

Each of the following definitions transcribes a sentence of the
specification (not the source); the theorems below compare them with
the source-side definitions above.
-/

/-- Spec-side packing loop as the spec words it: "if appending the
paragraph (plus a paragraph separator) to the buffer would keep the
buffer's length ≤ `max_chars`, append it; otherwise flush the current
buffer as a completed chunk (trimmed of trailing separators) and start
a new buffer containing just this paragraph."  The appended separator
is counted in the length check. -/
def specPackGoC7 (meta : Metadata) (max_chars : Nat) :
    List Str → Str → List Document → List Document
  | [], buffer, chunks =>
    if strip buffer ≠ [] then chunks ++ [⟨strip buffer, meta⟩] else chunks
  | para :: rest, buffer, chunks =>
    if buffer.length + para.length + psep.length ≤ max_chars then
      specPackGoC7 meta max_chars rest (buffer ++ para ++ psep) chunks
    else
      specPackGoC7 meta max_chars rest (para ++ psep) (chunks ++ [⟨strip buffer, meta⟩])

/-- The chunker as claim C7 describes it. -/
def specChunkerC7 (doc : Document) (max_chars : Nat) : List Document :=
  specPackGoC7 doc.metadata max_chars (splitSep doc.page_content) [] []

/-- The buffer string corresponding to a list of packed paragraphs:
empty when no paragraph is packed, otherwise the paragraphs joined by
the separator with one trailing separator. -/
def bufStr (bs : List Str) : Str :=
  if bs = [] then [] else joinSep bs ++ psep

/-- Corrected packing loop, phrased over the list of paragraphs packed
into the current buffer: a paragraph is appended exactly when the
buffer's current length (with its trailing separators) plus the
paragraph's length stays ≤ `max_chars` — the separator that will
follow the new paragraph is not counted. -/
def packGo (meta : Metadata) (max_chars : Nat) :
    List Str → List Str → List Document → List Document
  | [], bs, chunks =>
    if strip (bufStr bs) ≠ [] then chunks ++ [⟨strip (bufStr bs), meta⟩] else chunks
  | para :: rest, bs, chunks =>
    if (bufStr bs).length + para.length ≤ max_chars then
      packGo meta max_chars rest (bs ++ [para]) chunks
    else
      packGo meta max_chars rest [para] (chunks ++ [⟨strip (bufStr bs), meta⟩])

/-- The chunker rephrased over paragraph groups (amended C7). -/
def packChunker (doc : Document) (max_chars : Nat) : List Document :=
  packGo doc.metadata max_chars (splitSep doc.page_content) [] []

/-- Claim C6's rejoining: strip each emitted chunk, rejoin with blank
lines, and read the paragraph sequence back off. -/
def rejoinedParagraphs (doc : Document) (max_chars : Nat) : List Str :=
  splitSep (joinSep ((smart_text_chunker doc max_chars).map (fun c => strip c.page_content)))

/-- Spec-side citation header of claim C9: `(Page <page>` with
`, <reference>` inserted exactly when the metadata carries a
reference, closed with `)`. -/
def specHeaderC9 (d : Document) : Str :=
  "(Page ".data ++ natStr d.metadata.page ++
    (match d.metadata.ref with
     | some r => ", ".data ++ r
     | none => []) ++ ")".data

/-- Spec-side context assembly of claim C9: per-chunk blocks
`header + newline + content` joined with one blank line, in order. -/
def specContextC9 (docs : List Document) : Str :=
  joinSep (docs.map (fun d => specHeaderC9 d ++ '\n' :: d.page_content))

/-- Items of one page as claim C2 describes extraction: a failing
sub-artifact is skipped (a failed OCR degrades to no item), everything
else of the page is kept. -/
def isolatedImageItems (page_index : Nat) : Nat → List (Except Unit Str) → List RawDoc
  | _, [] => []
  | img_idx, .error _ :: rest => isolatedImageItems page_index (img_idx + 1) rest
  | img_idx, .ok ocr_text :: rest =>
    if strip ocr_text ≠ [] then
      ⟨ocr_text, ⟨page_index, "image".data, some ("Image ".data ++ natStr (img_idx + 1))⟩⟩ ::
        isolatedImageItems page_index (img_idx + 1) rest
    else isolatedImageItems page_index (img_idx + 1) rest

/-- The table list a page yields under claim C2's reading: a failed
table detection is skipped, a successful one keeps its tables. -/
def isolatedTables (t : Except Unit (List Str)) : List Str :=
  match t with
  | .error _ => []
  | .ok ts => ts

/-- Extraction as claim C2 describes it: every page contributes the
items of its non-failing sub-artifacts; failures never abort. -/
def isolatedPageItems : Nat → List PageData → List RawDoc
  | _, [] => []
  | page_index, page :: rest =>
    textItems page_index page.text ++ tableItems page_index 0 (isolatedTables page.tables)
      ++ isolatedImageItems page_index 0 page.images ++ isolatedPageItems (page_index + 1) rest

/-- A page on which no external sub-extraction raised. -/
def pageOk (p : PageData) : Bool :=
  p.tables.isOk && p.images.all Except.isOk

/-!
## Lemmas about the string model
-/

theorem lstrip_cons_not_space {c : Char} (s : Str) (h : isSpace c = false) :
    lstrip (c :: s) = c :: s := by
  simp [lstrip, List.dropWhile_cons, h]

theorem len_dropWhile_le (p : Char → Bool) : ∀ s : List Char, (s.dropWhile p).length ≤ s.length
  | [] => le_refl _
  | c :: s => by
    rw [List.dropWhile_cons]
    split
    · exact le_trans (len_dropWhile_le p s) (Nat.le_succ _)
    · exact le_refl _

theorem length_lstrip_le (s : Str) : (lstrip s).length ≤ s.length :=
  len_dropWhile_le isSpace s

theorem length_rstrip_le (s : Str) : (rstrip s).length ≤ s.length := by
  simpa [rstrip] using len_dropWhile_le isSpace s.reverse

theorem length_strip_le (s : Str) : (strip s).length ≤ s.length :=
  le_trans (length_lstrip_le _) (length_rstrip_le _)

theorem head_not_space_of_lstrip {c : Char} {s : Str} (h : lstrip (c :: s) = c :: s) :
    isSpace c = false := by
  by_contra hc
  rw [Bool.not_eq_false] at hc
  have h1 : lstrip (c :: s) = lstrip s := by simp [lstrip, List.dropWhile_cons, hc]
  have h2 : (lstrip s).length ≤ s.length := length_lstrip_le s
  rw [h] at h1
  have := congrArg List.length h1
  simp at this
  omega

theorem lstrip_append_clean {b : Str} (t : Str) (hb : lstrip b = b) (hne : b ≠ []) :
    lstrip (b ++ t) = b ++ t := by
  cases b with
  | nil => exact absurd rfl hne
  | cons c s =>
    have hc := head_not_space_of_lstrip hb
    simpa using lstrip_cons_not_space (s ++ t) hc

theorem rstrip_append_clean {t : Str} (s : Str) (ht : rstrip t = t) (hne : t ≠ []) :
    rstrip (s ++ t) = s ++ t := by
  have ht' : (t.reverse.dropWhile isSpace).reverse = t := ht
  have hrev : lstrip t.reverse = t.reverse := by
    show t.reverse.dropWhile isSpace = t.reverse
    have h0 := congrArg List.reverse ht'
    rwa [List.reverse_reverse] at h0
  have hner : t.reverse ≠ [] := by simpa using hne
  have key : t.reverse ++ s.reverse = lstrip (t.reverse ++ s.reverse) :=
    (lstrip_append_clean (t := s.reverse) hrev hner).symm
  show ((s ++ t).reverse.dropWhile isSpace).reverse = s ++ t
  rw [List.reverse_append, show (t.reverse ++ s.reverse).dropWhile isSpace
      = t.reverse ++ s.reverse from key.symm, List.reverse_append,
    List.reverse_reverse, List.reverse_reverse]

theorem rstrip_append_sep (s : Str) : rstrip (s ++ psep) = rstrip s := by
  simp [rstrip, psep, List.dropWhile_cons, isSpace]

theorem strip_append_sep (s : Str) : strip (s ++ psep) = strip s := by
  simp [strip, rstrip_append_sep]

theorem strip_clean {s : Str} (h1 : lstrip s = s) (h2 : rstrip s = s) : strip s = s := by
  simp [strip, h1, h2]

theorem joinSep_cons (p : Str) {rest : List Str} (h : rest ≠ []) :
    joinSep (p :: rest) = p ++ psep ++ joinSep rest := by
  cases rest with
  | nil => exact absurd rfl h
  | cons q r => simp [joinSep]

theorem joinSep_append {xs ys : List Str} (hx : xs ≠ []) (hy : ys ≠ []) :
    joinSep (xs ++ ys) = joinSep xs ++ psep ++ joinSep ys := by
  induction xs with
  | nil => exact absurd rfl hx
  | cons x xs ih =>
    cases xs with
    | nil => simpa [joinSep] using joinSep_cons x hy
    | cons x' xs' =>
      have hne : x' :: xs' ++ ys ≠ [] := by simp
      rw [List.cons_append, joinSep_cons x hne, ih (by simp),
        joinSep_cons x (by simp : x' :: xs' ≠ [])]
      simp [List.append_assoc]

theorem joinSep_snoc (p : Str) {bs : List Str} (h : bs ≠ []) :
    joinSep (bs ++ [p]) = joinSep bs ++ psep ++ p := by
  rw [joinSep_append h (by simp)]
  rfl

theorem bufStr_nil : bufStr [] = [] := rfl

theorem bufStr_snoc (bs : List Str) (para : Str) :
    bufStr (bs ++ [para]) = bufStr bs ++ (para ++ psep) := by
  by_cases h : bs = []
  · subst h
    simp [bufStr, joinSep]
  · simp only [bufStr, h, if_false, if_neg (by simp : ¬bs ++ [para] = [])]
    rw [joinSep_snoc para h]
    simp [List.append_assoc]

theorem splitSep_ne_nil (s : Str) : splitSep s ≠ [] := by
  rw [splitSep.eq_def]
  split
  · simp
  · simp
  · split <;> simp

theorem splitSep_cons_generic {c : Char} {rest : Str} {p : Str} {ps : List Str}
    (h : ∀ r1, c = '\n' → rest = '\n' :: r1 → False)
    (hs : splitSep rest = p :: ps) :
    splitSep (c :: rest) = (c :: p) :: ps := by
  rw [splitSep.eq_def]
  split
  · rename_i heq
    exact absurd heq (by simp)
  · rename_i r1 heq
    injection heq with h1 h2
    exact (h r1 h1 h2).elim
  · rename_i c' rest' hfalse heq
    injection heq with h1 h2
    subst h1
    subst h2
    rw [hs]

theorem joinSep_splitSep (s : Str) : joinSep (splitSep s) = s := by
  induction s using splitSep.induct with
  | case1 => rfl
  | case2 rest ih =>
    have hne := splitSep_ne_nil rest
    show joinSep ([] :: splitSep rest) = '\n' :: '\n' :: rest
    rw [joinSep_cons _ hne, ih]
    rfl
  | case3 c rest h hnil ih => exact absurd hnil (splitSep_ne_nil rest)
  | case4 c rest h p ps hs ih =>
    rw [splitSep_cons_generic h hs]
    rw [hs] at ih
    cases ps with
    | nil =>
      simp [joinSep] at ih ⊢
      exact ih
    | cons q qs =>
      rw [joinSep_cons _ (by simp : q :: qs ≠ [])] at ih
      rw [joinSep_cons _ (by simp : q :: qs ≠ [])]
      simp only [List.cons_append, List.append_assoc] at ih ⊢
      rw [ih]

theorem bufStr_single (para : Str) : bufStr [para] = para ++ psep := by
  simp [bufStr, joinSep]

theorem chunkerGo_eq_packGo (meta : Metadata) (max_chars : Nat) :
    ∀ (ps : List Str) (bs : List Str) (chunks : List Document),
      chunkerGo meta max_chars ps (bufStr bs) chunks = packGo meta max_chars ps bs chunks := by
  intro ps
  induction ps with
  | nil => intro bs chunks; rfl
  | cons para rest ih =>
    intro bs chunks
    simp only [chunkerGo, packGo]
    by_cases h : (bufStr bs).length + para.length ≤ max_chars
    · rw [if_pos h, if_pos h, ← ih (bs ++ [para]) chunks, bufStr_snoc]
      rw [List.append_assoc]
    · rw [if_neg h, if_neg h]
      have hstep := ih [para] (chunks ++ [⟨strip (bufStr bs), meta⟩])
      rw [bufStr_single] at hstep
      exact hstep

/-- A paragraph with no leading or trailing whitespace, and nonempty. -/
def cleanPara (p : Str) : Prop := lstrip p = p ∧ rstrip p = p ∧ p ≠ []

instance (p : Str) : Decidable (cleanPara p) := by
  unfold cleanPara
  infer_instance

theorem joinSep_ne_nil_clean {bs : List Str} (hne : bs ≠ [])
    (hcl : ∀ b ∈ bs, cleanPara b) : joinSep bs ≠ [] := by
  cases bs with
  | nil => exact absurd rfl hne
  | cons b rest =>
    have hb : b ≠ [] := (hcl b (by simp)).2.2
    cases rest with
    | nil => simpa [joinSep] using hb
    | cons q qs =>
      rw [joinSep_cons _ (by simp : q :: qs ≠ [])]
      cases b with
      | nil => exact absurd rfl hb
      | cons c cs => simp

theorem lstrip_joinSep_clean {bs : List Str} (hne : bs ≠ [])
    (hcl : ∀ b ∈ bs, cleanPara b) : lstrip (joinSep bs) = joinSep bs := by
  cases bs with
  | nil => exact absurd rfl hne
  | cons b rest =>
    have hb := hcl b (by simp)
    cases rest with
    | nil => exact hb.1
    | cons q qs =>
      rw [joinSep_cons _ (by simp : q :: qs ≠ []), List.append_assoc]
      exact lstrip_append_clean _ hb.1 hb.2.2

theorem rstrip_joinSep_clean {bs : List Str} (hne : bs ≠ [])
    (hcl : ∀ b ∈ bs, cleanPara b) : rstrip (joinSep bs) = joinSep bs := by
  induction bs with
  | nil => exact absurd rfl hne
  | cons b rest ih =>
    have hb := hcl b (by simp)
    cases rest with
    | nil => exact hb.2.1
    | cons q qs =>
      have hrest : ∀ p ∈ q :: qs, cleanPara p := fun p hp => hcl p (by simp [hp])
      have hjr : rstrip (joinSep (q :: qs)) = joinSep (q :: qs) := ih (by simp) hrest
      have hjne : joinSep (q :: qs) ≠ [] := joinSep_ne_nil_clean (by simp) hrest
      rw [joinSep_cons _ (by simp : q :: qs ≠ [])]
      exact rstrip_append_clean _ hjr hjne

theorem strip_joinSep_clean {bs : List Str} (hne : bs ≠ [])
    (hcl : ∀ b ∈ bs, cleanPara b) : strip (joinSep bs) = joinSep bs :=
  strip_clean (lstrip_joinSep_clean hne hcl) (rstrip_joinSep_clean hne hcl)

theorem strip_bufStr_clean {bs : List Str} (hne : bs ≠ [])
    (hcl : ∀ b ∈ bs, cleanPara b) : strip (bufStr bs) = joinSep bs := by
  rw [bufStr, if_neg hne, strip_append_sep]
  exact strip_joinSep_clean hne hcl

theorem map_strip_of_stripped {G : List Str} (h : ∀ g ∈ G, strip g = g) :
    G.map strip = G := by
  induction G with
  | nil => rfl
  | cons g gs ih =>
    rw [List.map_cons, h g (by simp), ih (fun x hx => h x (by simp [hx]))]

/-- The packing loop groups the paragraphs: under clean nonempty
paragraphs the produced chunk contents, rejoined with blank-line
separators, are exactly the pending paragraphs rejoined. -/
theorem packGo_content (meta : Metadata) (max_chars : Nat) :
    ∀ (ps bs : List Str) (chunks : List Document),
      bs ≠ [] → (∀ b ∈ bs, cleanPara b) → (∀ p ∈ ps, cleanPara p) →
      ∃ G : List Str, G ≠ [] ∧ (∀ g ∈ G, strip g = g) ∧
        (packGo meta max_chars ps bs chunks).map Document.page_content
          = chunks.map Document.page_content ++ G ∧
        joinSep G = joinSep (bs ++ ps) := by
  intro ps
  induction ps with
  | nil =>
    intro bs chunks hbs hcl _
    have hsb := strip_bufStr_clean hbs hcl
    have hjne := joinSep_ne_nil_clean hbs hcl
    refine ⟨[joinSep bs], by simp, ?_, ?_, by simp [joinSep]⟩
    · intro g hg
      rcases List.mem_singleton.1 hg with rfl
      exact strip_joinSep_clean hbs hcl
    · simp only [packGo, hsb]
      rw [if_pos hjne]
      simp [hsb]
  | cons para rest ih =>
    intro bs chunks hbs hcl hps
    have hpara : cleanPara para := hps para (by simp)
    have hrest : ∀ p ∈ rest, cleanPara p := fun p hp => hps p (by simp [hp])
    simp only [packGo]
    by_cases h : (bufStr bs).length + para.length ≤ max_chars
    · rw [if_pos h]
      have hcl' : ∀ b ∈ bs ++ [para], cleanPara b := by
        intro b hb
        rcases List.mem_append.1 hb with h1 | h1
        · exact hcl b h1
        · rcases List.mem_singleton.1 h1 with rfl
          exact hpara
      obtain ⟨G, hG1, hG2, hG3, hG4⟩ := ih (bs ++ [para]) chunks (by simp) hcl' hrest
      refine ⟨G, hG1, hG2, hG3, ?_⟩
      rw [hG4, List.append_assoc]
      rfl
    · rw [if_neg h]
      have hsb := strip_bufStr_clean hbs hcl
      obtain ⟨G, hG1, hG2, hG3, hG4⟩ :=
        ih [para] (chunks ++ [⟨strip (bufStr bs), meta⟩]) (by simp)
          (by intro b hb; rcases List.mem_singleton.1 hb with rfl; exact hpara) hrest
      refine ⟨joinSep bs :: G, by simp, ?_, ?_, ?_⟩
      · intro g hg
        rcases List.mem_cons.1 hg with rfl | hg'
        · exact strip_joinSep_clean hbs hcl
        · exact hG2 g hg'
      · rw [hG3]
        simp [hsb]
      · rw [joinSep_cons _ hG1, hG4,
          ← joinSep_append hbs (by simp : [para] ++ rest ≠ [])]
        simp

/-!
## Extraction lemmas (claims C2, C8)
-/

theorem imageItems_all_ok (page_index : Nat) :
    ∀ (img_idx : Nat) (imgs : List (Except Unit Str)),
      (∀ r ∈ imgs, r.isOk = true) →
      imageItems page_index img_idx imgs = .ok (isolatedImageItems page_index img_idx imgs) := by
  intro img_idx imgs
  induction imgs generalizing img_idx with
  | nil => intro _; rfl
  | cons r rest ih =>
    intro h
    cases r with
    | error e =>
      have hcontra := h (Except.error e) (by simp)
      simp [Except.isOk, Except.toBool] at hcontra
    | ok ocr_text =>
      have hstep := ih (img_idx + 1) (fun x hx => h x (by simp [hx]))
      simp only [imageItems, isolatedImageItems, hstep]

theorem imageItems_has_error (page_index : Nat) :
    ∀ (img_idx : Nat) (imgs : List (Except Unit Str)),
      (∃ r ∈ imgs, r.isOk = false) →
      imageItems page_index img_idx imgs = .error () := by
  intro img_idx imgs
  induction imgs generalizing img_idx with
  | nil => rintro ⟨r, hr, _⟩; simp at hr
  | cons r rest ih =>
    rintro ⟨x, hx, hxe⟩
    cases r with
    | error e =>
      cases e
      rfl
    | ok ocr_text =>
      rcases List.mem_cons.1 hx with rfl | hx'
      · simp [Except.isOk, Except.toBool] at hxe
      · have hstep := ih (img_idx + 1) ⟨x, hx', hxe⟩
        simp only [imageItems, hstep]

theorem rawPagesGo_all_ok :
    ∀ (page_index : Nat) (pages : List PageData),
      (∀ p ∈ pages, pageOk p = true) →
      rawPagesGo page_index pages = .ok (isolatedPageItems page_index pages) := by
  intro page_index pages
  induction pages generalizing page_index with
  | nil => intro _; rfl
  | cons page rest ih =>
    intro h
    have hp : pageOk page = true := h page (by simp)
    rw [pageOk, Bool.and_eq_true] at hp
    obtain ⟨htab, himg⟩ := hp
    have himgs : ∀ r ∈ page.images, r.isOk = true := by
      intro r hr
      exact List.all_eq_true.1 himg r hr
    cases htabs : page.tables with
    | error e => rw [htabs] at htab; simp [Except.isOk, Except.toBool] at htab
    | ok tables =>
      simp only [rawPagesGo, htabs, imageItems_all_ok page_index 0 page.images himgs,
        ih (page_index + 1) (fun p hp => h p (by simp [hp]))]
      simp [isolatedPageItems, htabs, isolatedTables]

theorem rawPagesGo_has_error :
    ∀ (page_index : Nat) (pages : List PageData),
      (∃ p ∈ pages, pageOk p = false) →
      rawPagesGo page_index pages = .error () := by
  intro page_index pages
  induction pages generalizing page_index with
  | nil => rintro ⟨p, hp, _⟩; simp at hp
  | cons page rest ih =>
    rintro ⟨p, hp, hpe⟩
    rcases List.mem_cons.1 hp with rfl | hp'
    · rw [pageOk, Bool.and_eq_false_iff] at hpe
      rcases hpe with htab | himg
      · cases htabs : p.tables with
        | error e =>
          cases e
          simp only [rawPagesGo, htabs]
        | ok tables => rw [htabs] at htab; simp [Except.isOk, Except.toBool] at htab
      · have hex : ∃ r ∈ p.images, r.isOk = false := by
          by_contra hall
          push_neg at hall
          have hip : p.images.all Except.isOk = true := by
            rw [List.all_eq_true]
            intro r hr
            rcases hko : r.isOk with _ | _
            · exact absurd hko (hall r hr)
            · rfl
          rw [hip] at himg
          simp at himg
        cases htabs : p.tables with
        | error e =>
          cases e
          simp only [rawPagesGo, htabs]
        | ok tables =>
          simp only [rawPagesGo, htabs,
            imageItems_has_error page_index 0 p.images hex]
    · have hrest := ih (page_index + 1) ⟨p, hp', hpe⟩
      cases htabs : page.tables with
      | error e =>
        cases e
        simp only [rawPagesGo, htabs]
      | ok tables =>
        cases himgs : imageItems page_index 0 page.images with
        | error e =>
          cases e
          simp only [rawPagesGo, htabs, himgs]
        | ok imgs => simp only [rawPagesGo, htabs, himgs, hrest]

/-- Metadata of a plain text unit on page one, used as concrete input. -/
def mT : Metadata := ⟨1, "text".data, none⟩

/-!
## The oversize bound (claim C5)
-/

theorem strip_buffer_append (buffer para : Str) :
    strip (buffer ++ para ++ psep) = strip (buffer ++ para) :=
  strip_append_sep (buffer ++ para)

theorem chunkerGo_oversize (meta : Metadata) (max_chars : Nat) (paras : List Str) :
    ∀ (ps : List Str) (buffer : Str) (chunks : List Document),
      (∀ p ∈ ps, p ∈ paras) →
      ((strip buffer).length ≤ max_chars ∨ ∃ p ∈ paras, strip buffer = strip p) →
      (∀ c ∈ chunks,
        c.page_content.length ≤ max_chars ∨ ∃ p ∈ paras, c.page_content = strip p) →
      ∀ c ∈ chunkerGo meta max_chars ps buffer chunks,
        c.page_content.length ≤ max_chars ∨ ∃ p ∈ paras, c.page_content = strip p := by
  intro ps
  induction ps with
  | nil =>
    intro buffer chunks _ hbuf hchunks c hc
    simp only [chunkerGo] at hc
    split at hc
    · rcases List.mem_append.1 hc with h | h
      · exact hchunks c h
      · rcases List.mem_singleton.1 h with rfl
        exact hbuf
    · exact hchunks c hc
  | cons para rest ih =>
    intro buffer chunks hps hbuf hchunks c hc
    simp only [chunkerGo] at hc
    have hpara : para ∈ paras := hps para (by simp)
    have hrest : ∀ p ∈ rest, p ∈ paras := fun p hp => hps p (by simp [hp])
    split at hc
    · rename_i hle
      refine ih (buffer ++ para ++ psep) chunks hrest ?_ hchunks c hc
      left
      calc (strip (buffer ++ para ++ psep)).length
          = (strip (buffer ++ para)).length := by rw [strip_buffer_append]
        _ ≤ (buffer ++ para).length := length_strip_le _
        _ = buffer.length + para.length := by simp
        _ ≤ max_chars := hle
    · refine ih (para ++ psep) (chunks ++ [⟨strip buffer, meta⟩]) hrest ?_ ?_ c hc
      · right
        exact ⟨para, hpara, strip_append_sep para⟩
      · intro d hd
        rcases List.mem_append.1 hd with h | h
        · exact hchunks d h
        · rcases List.mem_singleton.1 h with rfl
          exact hbuf



/-!
## Claim theorems
-/

/-- C1: on a text unit that is a single paragraph longer than
`max_chars` (content `"abcd"`, `max_chars = 3`) the chunker does NOT
emit exactly one chunk: the mid-loop flush lacks the emptiness guard
the final flush has, so an empty-content chunk is emitted before the
oversized paragraph. -/
theorem smart_text_chunker_single_oversized_eval :
    splitSep "abcd".data = ["abcd".data]
    ∧ 3 < ("abcd".data : Str).length
    ∧ smart_text_chunker ⟨"abcd".data, mT⟩ 3 = [⟨[], mT⟩, ⟨"abcd".data, mT⟩] := by
  decide

/-- Pages for the C2 counterexample: page 1 has one corrupt image
(OCR raises), page 2 has a text layer. -/
def cxPages : List PageData :=
  [⟨none, Except.ok [], [Except.error ()]⟩, ⟨some "hello".data, Except.ok [], []⟩]

/-- C2 (counterexample): with a corrupt image on page 1, extraction
does not skip the failing sub-artifact and return the remaining items
(page 2's text item) — the whole call aborts with an error. -/
theorem raw_document_text_not_isolated_cx :
    raw_document_text cxPages = Except.error ()
    ∧ raw_document_text cxPages ≠ Except.ok (isolatedPageItems 1 cxPages)
    ∧ isolatedPageItems 1 cxPages = [⟨"hello".data, ⟨2, "text".data, none⟩⟩] := by
  decide

/-- C2 (amended): extraction failures are not isolated — a failing
table detection or image OCR on any page aborts the whole extraction
with an error; only when every sub-extraction succeeds are the items
returned, and then an OCR result that is empty or whitespace-only is
skipped (no image item) while the rest of that page and all remaining
pages are still extracted. -/
theorem raw_document_text_failure_behavior (pages : List PageData) :
    ((∃ p ∈ pages, pageOk p = false) → raw_document_text pages = Except.error ())
    ∧ ((∀ p ∈ pages, pageOk p = true) →
        raw_document_text pages = Except.ok (isolatedPageItems 1 pages)) :=
  ⟨fun h => rawPagesGo_has_error 1 pages h, fun h => rawPagesGo_all_ok 1 pages h⟩

/-- Witness for C2's amended theorem at a concrete page whose single
image OCRs to whitespace: extraction succeeds, the image emits no
item, the text item is still returned. -/
theorem raw_document_text_failure_behavior_witness :
    raw_document_text [⟨some "hi".data, Except.ok [], [Except.ok "  ".data]⟩]
      = Except.ok [⟨"hi".data, ⟨1, "text".data, none⟩⟩] := by
  have h := (raw_document_text_failure_behavior
    [⟨some "hi".data, Except.ok [], [Except.ok "  ".data]⟩]).2 (by decide)
  rw [h]
  decide

/-- C3: with no saved index, `/query` surfaces the distinct
not-yet-initialized error (HTTP 500 with `load_documents`' message)
and the chain — context assembly and LLM call — is never invoked;
the query is not answered from an empty retrieval. -/
theorem get_response_uninitialized (retrieve : List Document → Str → List Document)
    (llm : Str → Str → Str) (input : Str) :
    get_response none retrieve llm input
      = (Except.error (500, "Vectorstore not found,Upload Your Document First"), false) :=
  rfl

/-- First ingested chunk for the C4 counterexample. -/
def docA : Document := ⟨"A".data, ⟨1, "text".data, none⟩⟩

/-- Second ingested chunk for the C4 counterexample. -/
def docB : Document := ⟨"B".data, ⟨2, "text".data, none⟩⟩

/-- C4 (counterexample): after storing `[docA]` and then `[docB]`,
loading returns only `[docB]` — `docA`, stored by the earlier call,
is no longer present. -/
theorem store_documents_not_append_cx :
    load_documents (store_documents [docB] (store_documents [docA] none).2).2
      = Except.ok [docB]
    ∧ docA ∉ [docB] := by
  decide

/-- C4 (amended): `store_documents` builds the saved index from the
given chunks alone and overwrites what was saved — after a second
ingestion `load_documents` returns exactly the second call's chunks,
whatever was stored before. -/
theorem store_documents_overwrites (docs1 docs2 : List Document)
    (saved0 : Option (List Document)) :
    load_documents (store_documents docs2 (store_documents docs1 saved0).2).2
      = Except.ok docs2 :=
  rfl

/-- C5: no emitted chunk's content exceeds `max_chars` except a chunk
that is the trimming of a single original paragraph which itself
exceeds `max_chars`. -/
theorem smart_text_chunker_oversize (doc : Document) (max_chars : Nat)
    (c : Document) (hc : c ∈ smart_text_chunker doc max_chars) :
    c.page_content.length ≤ max_chars
    ∨ ∃ p ∈ splitSep doc.page_content,
        c.page_content = strip p ∧ max_chars < p.length := by
  have h := chunkerGo_oversize doc.metadata max_chars (splitSep doc.page_content)
    (splitSep doc.page_content) [] [] (fun p hp => hp)
    (Or.inl (by simp [strip, lstrip, rstrip])) (by simp) c hc
  rcases h with h | ⟨p, hp, he⟩
  · exact Or.inl h
  · by_cases hlen : c.page_content.length ≤ max_chars
    · exact Or.inl hlen
    · refine Or.inr ⟨p, hp, he, ?_⟩
      have h1 : (strip p).length ≤ p.length := length_strip_le p
      have h2 : c.page_content.length = (strip p).length := by rw [he]
      omega

/-- Witness for C5 at the oversized single-paragraph input. -/
theorem smart_text_chunker_oversize_witness :
    (⟨"abcd".data, mT⟩ : Document).page_content.length ≤ 3
    ∨ ∃ p ∈ splitSep (⟨"abcd".data, mT⟩ : Document).page_content,
        (⟨"abcd".data, mT⟩ : Document).page_content = strip p ∧ 3 < p.length :=
  smart_text_chunker_oversize ⟨"abcd".data, mT⟩ 3 ⟨"abcd".data, mT⟩ (by decide)

/-- C6 (counterexample): for the unit whose single paragraph `" a"`
carries leading whitespace, rejoining the stripped chunks gives the
paragraph `"a"`, not the original paragraph `" a"` — the original
paragraph sequence is not reproduced. -/
theorem smart_text_chunker_rejoin_cx :
    splitSep " a".data = [" a".data]
    ∧ rejoinedParagraphs ⟨" a".data, mT⟩ 3 = ["a".data]
    ∧ rejoinedParagraphs ⟨" a".data, mT⟩ 3 ≠ splitSep " a".data := by
  decide

/-- C6 (amended): provided every paragraph of the unit is nonempty
with no leading or trailing whitespace, and the first paragraph's
length is at most `max_chars`, stripping each emitted chunk and
rejoining with blank-line separators reproduces the unit's content
exactly, hence its paragraph sequence with no paragraph dropped,
duplicated, reordered or inserted. -/
theorem smart_text_chunker_rejoin (doc : Document) (max_chars : Nat)
    (hclean : ∀ p ∈ splitSep doc.page_content, cleanPara p)
    (hfirst : (splitSep doc.page_content).headI.length ≤ max_chars) :
    joinSep ((smart_text_chunker doc max_chars).map (fun c => strip c.page_content))
      = doc.page_content
    ∧ rejoinedParagraphs doc max_chars = splitSep doc.page_content := by
  have hjoin : joinSep ((smart_text_chunker doc max_chars).map
      (fun c => strip c.page_content)) = doc.page_content := by
    cases hsplit : splitSep doc.page_content with
    | nil => exact absurd hsplit (splitSep_ne_nil _)
    | cons p0 rest =>
      rw [hsplit] at hfirst
      simp only [List.headI] at hfirst
      have hchunker : smart_text_chunker doc max_chars
          = packGo doc.metadata max_chars rest [p0] [] := by
        unfold smart_text_chunker
        rw [hsplit]
        simp only [chunkerGo]
        rw [if_pos (by simpa using hfirst)]
        have heq := chunkerGo_eq_packGo doc.metadata max_chars rest [p0] []
        rw [bufStr_single] at heq
        simpa using heq
      obtain ⟨G, hG1, hG2, hG3, hG4⟩ := packGo_content doc.metadata max_chars rest [p0] []
        (by simp)
        (by
          intro b hb
          rcases List.mem_singleton.1 hb with rfl
          exact hclean b (by rw [hsplit]; simp))
        (by
          intro p hp
          exact hclean p (by rw [hsplit]; simp [hp]))
      simp only [List.map_nil, List.nil_append] at hG3
      have hmapeq : (smart_text_chunker doc max_chars).map (fun c => strip c.page_content)
          = ((smart_text_chunker doc max_chars).map Document.page_content).map strip := by
        rw [List.map_map]
        rfl
      rw [hmapeq, hchunker, hG3, map_strip_of_stripped hG2, hG4]
      have hback := joinSep_splitSep doc.page_content
      rw [hsplit] at hback
      simpa using hback
  refine ⟨hjoin, ?_⟩
  rw [rejoinedParagraphs, hjoin]

/-- Witness for C6's amended theorem on a two-paragraph unit. -/
theorem smart_text_chunker_rejoin_witness :
    joinSep ((smart_text_chunker ⟨"ab\n\ncd".data, mT⟩ 10).map
      (fun c => strip c.page_content)) = "ab\n\ncd".data
    ∧ rejoinedParagraphs ⟨"ab\n\ncd".data, mT⟩ 10 = splitSep "ab\n\ncd".data :=
  smart_text_chunker_rejoin ⟨"ab\n\ncd".data, mT⟩ 10 (by decide) (by decide)

/-- C7 (counterexample): with `max_chars = 5` and paragraphs
`"ab"`, `"c"`, the code packs both into one chunk (the check
`len(buffer) + len(para) <= max_chars` does not count the separator),
while the claimed rule — counting the separator — would flush and
produce two chunks. -/
theorem smart_text_chunker_condition_cx :
    smart_text_chunker ⟨"ab\n\nc".data, mT⟩ 5 = [⟨"ab\n\nc".data, mT⟩]
    ∧ specChunkerC7 ⟨"ab\n\nc".data, mT⟩ 5 = [⟨"ab".data, mT⟩, ⟨"c".data, mT⟩]
    ∧ smart_text_chunker ⟨"ab\n\nc".data, mT⟩ 5 ≠ specChunkerC7 ⟨"ab\n\nc".data, mT⟩ 5 := by
  decide

/-- C7 (amended): a paragraph is appended exactly when the buffer's
current length (the trailing separator after each already-packed
paragraph included) plus the paragraph's length is ≤ `max_chars` —
the separator that will follow the appended paragraph is not counted;
otherwise the buffer is flushed (trimmed of trailing separators) and
a new buffer starts with just this paragraph: the chunker equals the
packing loop `packGo` phrased this way over paragraph groups. -/
theorem smart_text_chunker_eq_packChunker (doc : Document) (max_chars : Nat) :
    smart_text_chunker doc max_chars = packChunker doc max_chars := by
  unfold smart_text_chunker packChunker
  have heq := chunkerGo_eq_packGo doc.metadata max_chars (splitSep doc.page_content) [] []
  rw [bufStr_nil] at heq
  exact heq

/-- C8 (counterexample): a page whose text layer is the whitespace-only
string `" "` DOES emit a text item (the `if text:` guard only filters
`None` and the empty string). -/
theorem textItems_whitespace_cx :
    raw_document_text [⟨some [' '], Except.ok [], []⟩]
      = Except.ok [⟨[' '], ⟨1, "text".data, none⟩⟩]
    ∧ strip [' '] = []
    ∧ ([' '] : Str) ≠ [] := by
  decide

/-- C8 (amended): the page extractor omits the text item exactly when
the text layer is absent (`None`) or the empty string; a
whitespace-only nonempty text layer does emit a text item. -/
theorem textItems_empty_iff (text : Option Str) :
    raw_document_text [⟨text, Except.ok [], []⟩] = Except.ok (textItems 1 text)
    ∧ (textItems 1 text = [] ↔ (text = none ∨ text = some [])) := by
  constructor
  · show rawPagesGo 1 [⟨text, Except.ok [], []⟩] = Except.ok (textItems 1 text)
    simp [rawPagesGo, imageItems, tableItems]
  · cases text with
    | none => simp [textItems]
    | some t =>
      cases t with
      | nil => simp [textItems]
      | cons c s => simp [textItems]

/-- C9: for every retrieved chunk list whose present references are
nonempty, the context `format_docs_with_metadata` assembles equals the
spec-side rendering: header `(Page <page>` with `, <reference>`
inserted exactly when the metadata carries a reference, closed with
`)`, then a newline and the content, blocks joined by one blank line
in retrieval order. -/
theorem format_docs_matches_spec (docs : List Document)
    (href : ∀ d ∈ docs, d.metadata.ref ≠ some []) :
    format_docs_with_metadata docs = specContextC9 docs := by
  unfold format_docs_with_metadata specContextC9
  refine congrArg joinSep (List.map_congr_left ?_)
  intro d hd
  have hr := href d hd
  cases hrf : d.metadata.ref with
  | none => simp [specHeaderC9, hrf]
  | some r =>
    rw [hrf] at hr
    have hrne : r ≠ [] := fun h => hr (by rw [h])
    simp [specHeaderC9, hrf, hrne, List.append_assoc]

/-- Retrieved table chunk of the C9 example: page 4, reference
`Table 2`. -/
def d4 : Document := ⟨"T2 content".data, ⟨4, "table".data, some "Table 2".data⟩⟩

/-- Retrieved text chunk of the C9 example: page 7, no reference. -/
def d7 : Document := ⟨"some text".data, ⟨7, "text".data, none⟩⟩

/-- Witness for C9 on the claim's example chunks, with the rendered
context spelled out. -/
theorem format_docs_matches_spec_witness :
    format_docs_with_metadata [d4, d7] = specContextC9 [d4, d7]
    ∧ format_docs_with_metadata [d4, d7]
        = "(Page 4, Table 2)\nT2 content\n\n(Page 7)\nsome text".data :=
  ⟨format_docs_matches_spec [d4, d7] (by decide), by decide⟩

/-- C10: a unit of kind table or image passes through the chunking
stage as exactly one chunk, content and metadata unchanged, in
position. -/
theorem chunkDoc_passthrough (xs ys : List Document) (d : Document)
    (h : d.metadata.type = "table".data ∨ d.metadata.type = "image".data) :
    (xs ++ d :: ys).flatMap chunkDoc
      = xs.flatMap chunkDoc ++ d :: ys.flatMap chunkDoc := by
  have hd : chunkDoc d = [d] := by
    rcases h with h | h
    · rw [chunkDoc, if_neg (by rw [h]; decide), if_pos h]
    · rw [chunkDoc, if_neg (by rw [h]; decide), if_neg (by rw [h]; decide), if_pos h]
  rw [List.flatMap_append, List.flatMap_cons, hd]
  simp

/-- A table unit used in the C10 witness. -/
def dTab : Document := ⟨"tbl".data, ⟨1, "table".data, some "Table 1".data⟩⟩

/-- A text unit used in the C10 witness. -/
def dTxt : Document := ⟨"hello".data, mT⟩

/-- Witness for C10: one table unit surrounded by a text unit. -/
theorem chunkDoc_passthrough_witness :
    ([dTxt] ++ dTab :: []).flatMap chunkDoc
      = [dTxt].flatMap chunkDoc ++ dTab :: ([] : List Document).flatMap chunkDoc :=
  chunkDoc_passthrough [dTxt] [] dTab (Or.inl rfl)
